import Mathlib

/-!
# Verification of the coin-game server engine

A shallow embedding of `src/server/game.js` / `src/unnamed/part_000`
(the server-side game module of the coin game).  The Redis-backed store
(`usednames` set, `player:<name>` position strings, `scores` sorted set,
`coins` hash) is modelled as a `GameState` record of association lists,
and each exported operation (`addPlayer`, `move`, `state`, plus the
internal `placeCoins`) is translated into a pure state-passing function.
Store commands are modelled with their Redis semantics (SADD, SET, ZADD,
ZINCRBY, HSETNX, HDEL, HLEN, ZREVRANGE).  Each call is modelled as an
atomic step: the interleaving of the callback chains of distinct calls is
outside the model.

The utility module `gameutil.js` (`clamp`, `randomPoint`, `permutation`)
is required by `game.js` but is not part of the source tree; those pieces
are modelled from the spec (see the doc comments below).
-/

namespace CoinGame

def WIDTH : Nat := 64
def HEIGHT : Nat := 64
def MAX_PLAYER_NAME_LENGTH : Nat := 32
def NUM_COINS : Nat := 100

/-- Modelled from the spec: `clamp(value, low, high)` from the missing
`gameutil.js` — "returns `low` if `value < low`, `high` if `value > high`,
else `value`. Pure, total, no failure mode." -/
def clamp (value low high : Int) : Int :=
  if value < low then low else if value > high then high else value

/-- A grid position, the parse of a `"x,y"` record. -/
abbrev Pos := Int × Int

/-- Lookup in an association list (the keyed-record read primitive:
GET / HGET / ZSCORE). -/
def alget {α β : Type} [DecidableEq α] : List (α × β) → α → Option β
  | [], _ => none
  | (a, b) :: t, k => if a = k then some b else alget t k

/-- Overwrite-or-append in an association list (SET / ZADD). -/
def alset {α β : Type} [DecidableEq α] : List (α × β) → α → β → List (α × β)
  | [], k, v => [(k, v)]
  | (a, b) :: t, k, v => if a = k then (k, v) :: t else (a, b) :: alset t k v

/-- Delete a key from an association list (HDEL). -/
def aldel {α β : Type} [DecidableEq α] (l : List (α × β)) (k : α) : List (α × β) :=
  l.filter (fun c => c.1 ≠ k)

/-- ZINCRBY: add `v` to the member's score, treating a missing member as 0
(Redis creates the member with score `v`). -/
def zincrby (scores : List (String × Nat)) (name : String) (v : Nat) :
    List (String × Nat) :=
  match alget scores name with
  | some sc => alset scores name (sc + v)
  | none => scores ++ [(name, v)]

/-- HSETNX: write the field only when it is absent. -/
def hsetnx (coins : List (Pos × Nat)) (k : Pos) (v : Nat) : List (Pos × Nat) :=
  if (alget coins k).isSome then coins else coins ++ [(k, v)]

/-- The game state held in the store, laid out as in the source comment:
`player:<name>` position records, `scores` sorted set, `coins` hash,
`usednames` set. -/
structure GameState where
  usednames : List String
  players : List (String × Pos)
  scores : List (String × Nat)
  coins : List (Pos × Nat)
deriving DecidableEq

/-- Outcome reported through `addPlayer`'s callback.  The source reports
rejection as `callback(null, false)` in both rejection branches of the
guard `name.length === 0 || name.length > MAX_PLAYER_NAME_LENGTH || res`;
with JavaScript short-circuit evaluation the length test decides first,
so the two rejection reasons are distinguished here by which disjunct of
the guard fires (the spec's `InvalidName` / `NameTaken` taxonomy). -/
inductive AddOutcome
  | admitted
  | invalidName
  | nameTaken
deriving DecidableEq

/-- `addPlayer(name)` from `game.js`: SISMEMBER on `usednames`, the guard
on length/membership, then an atomic MULTI batch of SADD `usednames`,
SET `player:<name>` to `randomPoint(WIDTH, HEIGHT)`, ZADD `scores` 0.
`randomPoint` lives in the missing `gameutil.js`; it is modelled from the
spec as an arbitrary `start` point supplied by the caller ("uniformly
random integer pair within `[0,width) × [0,height)`"). -/
def addPlayer (s : GameState) (name : String) (start : Pos) :
    AddOutcome × GameState :=
  if name.length = 0 ∨ MAX_PLAYER_NAME_LENGTH < name.length ∨ name ∈ s.usednames then
    (if name.length = 0 ∨ MAX_PLAYER_NAME_LENGTH < name.length then
        AddOutcome.invalidName
     else AddOutcome.nameTaken, s)
  else
    (AddOutcome.admitted,
      { s with
        usednames := s.usednames ++ [name]
        players := alset s.players name start
        scores := alset s.scores name 0 })

/-- The coin value assigned to permutation rank `i`:
`(i < 50) ? 1 : (i < 75) ? 2 : (i < 95) ? 5 : 10`. -/
def coinValue (i : Nat) : Nat :=
  if i < 50 then 1 else if i < 75 then 2 else if i < 95 then 5 else 10

/-- The coin-hash key built from a cell index:
`${Math.floor(position / WIDTH)},${Math.floor(position % WIDTH)}`. -/
def coinKey (position : Nat) : Pos :=
  ((position / WIDTH : Nat), (position % WIDTH : Nat))

/-- `placeCoins()` from `game.js`: DEL `coins`, then for the first
`NUM_COINS` entries of a random permutation of `WIDTH * HEIGHT` cell
indices, HSETNX the keyed cell to its rank's coin value.  `permutation`
lives in the missing `gameutil.js`; it is modelled from the spec as a
caller-supplied list `perm` hypothesised to be a permutation of
`0 .. WIDTH*HEIGHT - 1` ("must produce each index exactly once"). -/
def placeCoins (perm : List Nat) : List (Pos × Nat) :=
  ((perm.take NUM_COINS).enum).foldl
    (fun cs p => hsetnx cs (coinKey p.2) (coinValue p.1)) []

/-- The direction-to-delta table of `move`:
`{ U: [0, -1], R: [1, 0], D: [0, 1], L: [-1, 0] }[direction]`. -/
def deltaOf (direction : String) : Option (Int × Int) :=
  if direction = "U" then some (0, -1)
  else if direction = "R" then some (1, 0)
  else if direction = "D" then some (0, 1)
  else if direction = "L" then some (-1, 0)
  else none

/-- `move(direction, name)` from `game.js`.  An unrecognised direction is
a no-op.  GET of `player:<name>` returning nil makes the source evaluate
`res.split(',')` on `null`, a TypeError, modelled as `Except.error`.
Otherwise: clamp each axis into the grid, HGET the destination coin,
on a hit ZINCRBY the mover's score and HDEL the coin, SET the new
position, then HLEN `coins` and call `placeCoins` when it is zero.
The refill's permutation argument is threaded through as `perm`. -/
def move (s : GameState) (direction name : String) (perm : List Nat) :
    Except String GameState :=
  match deltaOf direction with
  | none => Except.ok s
  | some delta =>
    match alget s.players name with
    | none => Except.error "TypeError: cannot read property split of null"
    | some (x, y) =>
      let newX := clamp (x + delta.1) 0 ((WIDTH : Int) - 1)
      let newY := clamp (y + delta.2) 0 ((HEIGHT : Int) - 1)
      let s1 :=
        match alget s.coins (newX, newY) with
        | some v =>
          { s with
            scores := zincrby s.scores name v
            coins := aldel s.coins (newX, newY) }
        | none => s
      let s2 := { s1 with players := alset s1.players name (newX, newY) }
      if s2.coins.length = 0 then
        Except.ok { s2 with coins := placeCoins perm }
      else
        Except.ok s2

/-- The ZREVRANGE ordering on `scores` members: descending by score, ties
in reverse lexicographical order of the member (Redis sorted-set
semantics). -/
def scoreRel (a b : String × Nat) : Prop :=
  b.2 < a.2 ∨ (a.2 = b.2 ∧ b.1 ≤ a.1)

instance : DecidableRel scoreRel := fun a b => by
  unfold scoreRel; infer_instance

/-- ZREVRANGE `scores` 0 -1 WITHSCORES, modelled as a sort by `scoreRel`. -/
def zrevrangeWithScores (scores : List (String × Nat)) : List (String × Nat) :=
  List.insertionSort scoreRel scores

/-- The snapshot `state()` hands to its callback:
`{positions, scores, coins}`. -/
structure Snapshot where
  positions : List (String × Pos)
  scores : List (String × Nat)
  coins : List (Pos × Nat)
deriving DecidableEq

/-- `state(callback)` as implemented in `src/unnamed/part_000`: KEYS
`player:*` + MGET rebuild the name→position mapping (the `players`
records), ZREVRANGE WITHSCORES yields the score pairs in descending
order, HGETALL `coins` yields the coin mapping. -/
def state (s : GameState) : Snapshot :=
  { positions := s.players
    scores := zrevrangeWithScores s.scores
    coins := s.coins }

/-- The exported `state()` of `src/server/game.js`, the copy `index.js`
requires: it issues KEYS and MGET (reads only) and then hits
`return null;` — the snapshot-assembly code below that line is
unreachable, and no callback is ever handed a snapshot.  Its observable
result is modelled: `none`, never a snapshot. -/
def stateServerGameJs (_s : GameState) : Option Snapshot := none

/-! ## Store-primitive lemmas -/

theorem alget_alset_self {α β : Type} [DecidableEq α] (l : List (α × β)) (k : α) (v : β) :
    alget (alset l k v) k = some v := by
  induction l with
  | nil => simp [alget, alset]
  | cons c t ih =>
    by_cases h : c.1 = k
    · simp [alset, alget, h]
    · simp [alset, alget, h, ih]

theorem alget_alset_ne {α β : Type} [DecidableEq α] (l : List (α × β)) (k m : α) (v : β)
    (h : m ≠ k) : alget (alset l k v) m = alget l m := by
  have hk : k ≠ m := Ne.symm h
  induction l with
  | nil => simp [alget, alset, hk]
  | cons c t ih =>
    by_cases hc : c.1 = k
    · simp [alset, alget, hc, hk, hc.symm ▸ hk]
    · by_cases hm : c.1 = m <;> simp [alset, alget, hc, hm, ih, h]

theorem alget_aldel_self {α β : Type} [DecidableEq α] (l : List (α × β)) (k : α) :
    alget (aldel l k) k = none := by
  induction l with
  | nil => simp [alget, aldel]
  | cons c t ih =>
    by_cases h : c.1 = k
    · simpa [aldel, List.filter, h] using ih
    · simpa [aldel, List.filter, h, alget] using ih

theorem alget_zincrby_self (scores : List (String × Nat)) (name : String) (v : Nat) :
    alget (zincrby scores name v) name = some ((alget scores name).getD 0 + v) := by
  unfold zincrby
  cases h : alget scores name with
  | none =>
    simp only [h, Option.getD_none, Nat.zero_add]
    induction scores with
    | nil => simp [alget]
    | cons c t ih =>
      by_cases hc : c.1 = name
      · simp [alget, hc] at h
      · simp [alget, hc] at h ⊢
        exact ih h
  | some sc => simp [h, alget_alset_self]

theorem alget_zincrby_ne (scores : List (String × Nat)) (name m : String) (v : Nat)
    (h : m ≠ name) : alget (zincrby scores name v) m = alget scores m := by
  have hn : name ≠ m := Ne.symm h
  unfold zincrby
  cases alget scores name with
  | none =>
    induction scores with
    | nil => simp [alget, hn]
    | cons c t ih =>
      by_cases hc : c.1 = m <;> simp [alget, hc, ih]
  | some sc => exact alget_alset_ne _ _ _ _ h

theorem alget_eq_none {α β : Type} [DecidableEq α] (l : List (α × β)) (k : α)
    (h : ∀ c ∈ l, c.1 ≠ k) : alget l k = none := by
  induction l with
  | nil => rfl
  | cons c t ih =>
    have hc := h c (List.mem_cons_self c t)
    simp only [alget, if_neg hc]
    exact ih (fun d hd => h d (List.mem_cons_of_mem c hd))

/-! ## C6: invalid names are always rejected -/

/-- C6: for every name that is empty or longer than
`MAX_PLAYER_NAME_LENGTH` (32) characters, `addPlayer` rejects with the
`InvalidName` branch of its guard, whatever the current store state, and
returns the state unchanged (it performs no writes). -/
theorem addPlayer_invalidName (s : GameState) (name : String) (start : Pos)
    (h : name.length = 0 ∨ MAX_PLAYER_NAME_LENGTH < name.length) :
    addPlayer s name start = (AddOutcome.invalidName, s) := by
  have h1 : name.length = 0 ∨ MAX_PLAYER_NAME_LENGTH < name.length ∨
      name ∈ s.usednames := by tauto
  unfold addPlayer
  rw [if_pos h1, if_pos h]

theorem addPlayer_invalidName_witness :
    addPlayer ⟨["x"], [("x", (1, 2))], [("x", 4)], [((0, 0), 1)]⟩ "" (0, 0)
      = (AddOutcome.invalidName, ⟨["x"], [("x", (1, 2))], [("x", 4)], [((0, 0), 1)]⟩) :=
  addPlayer_invalidName _ "" _ (Or.inl rfl)

/-! ## C1: name uniqueness -/

/-- C1: for a name of length 1..32 not yet claimed, `addPlayer` admits it
and records it in `usednames`; thereafter, on any store in which the name
is claimed, `addPlayer` for that name rejects through the `NameTaken`
branch and returns the store exactly as it was (a rejected admission
commits none of its writes — the MULTI batch is never started). -/
theorem addPlayer_unique (s : GameState) (name : String) (start : Pos)
    (hlen1 : 1 ≤ name.length) (hlen2 : name.length ≤ MAX_PLAYER_NAME_LENGTH)
    (hfresh : name ∉ s.usednames) :
    (addPlayer s name start).1 = AddOutcome.admitted ∧
    name ∈ (addPlayer s name start).2.usednames ∧
    ∀ (s' : GameState) (start' : Pos), name ∈ s'.usednames →
      addPlayer s' name start' = (AddOutcome.nameTaken, s') := by
  have hne : ¬ (name.length = 0 ∨ MAX_PLAYER_NAME_LENGTH < name.length) := by
    push_neg
    omega
  have h1 : ¬ (name.length = 0 ∨ MAX_PLAYER_NAME_LENGTH < name.length ∨
      name ∈ s.usednames) := by tauto
  refine ⟨?_, ?_, ?_⟩
  · unfold addPlayer
    rw [if_neg h1]
  · unfold addPlayer
    rw [if_neg h1]
    simp
  · intro s' start' hmem
    have h2 : name.length = 0 ∨ MAX_PLAYER_NAME_LENGTH < name.length ∨
        name ∈ s'.usednames := by tauto
    unfold addPlayer
    rw [if_pos h2, if_neg hne]

theorem addPlayer_unique_witness :
    (addPlayer ⟨[], [], [], []⟩ "alice" (3, 4)).1 = AddOutcome.admitted ∧
    addPlayer (addPlayer ⟨[], [], [], []⟩ "alice" (3, 4)).2 "alice" (9, 9)
      = (AddOutcome.nameTaken, (addPlayer ⟨[], [], [], []⟩ "alice" (3, 4)).2) := by
  have h := addPlayer_unique ⟨[], [], [], []⟩ "alice" (3, 4)
    (by decide) (by decide) (by simp)
  exact ⟨h.1, h.2.2 _ (9, 9) h.2.1⟩

/-! ## C10: admission frame -/

/-- C10: `addPlayer` never touches the coin field; every name other than
the one being added keeps its position record, score entry and
registry-membership status; a rejected call changes nothing at all; an
admitted call appends exactly the one new registry entry and writes the
new player's position record (`start`) and score entry (0). -/
theorem addPlayer_frame (s : GameState) (name : String) (start : Pos) :
    (addPlayer s name start).2.coins = s.coins ∧
    (∀ m, m ≠ name →
      alget (addPlayer s name start).2.players m = alget s.players m ∧
      alget (addPlayer s name start).2.scores m = alget s.scores m ∧
      (m ∈ (addPlayer s name start).2.usednames ↔ m ∈ s.usednames)) ∧
    ((addPlayer s name start).1 ≠ AddOutcome.admitted →
      (addPlayer s name start).2 = s) ∧
    ((addPlayer s name start).1 = AddOutcome.admitted →
      (addPlayer s name start).2.usednames = s.usednames ++ [name] ∧
      alget (addPlayer s name start).2.players name = some start ∧
      alget (addPlayer s name start).2.scores name = some 0) := by
  unfold addPlayer
  by_cases h : name.length = 0 ∨ MAX_PLAYER_NAME_LENGTH < name.length ∨
      name ∈ s.usednames
  · rw [if_pos h]
    refine ⟨rfl, fun m _ => ⟨rfl, rfl, Iff.rfl⟩, fun _ => rfl, fun hadm => ?_⟩
    exfalso
    revert hadm
    split <;> simp
  · rw [if_neg h]
    refine ⟨rfl, fun m hm => ⟨alget_alset_ne _ _ _ _ hm, alget_alset_ne _ _ _ _ hm, ?_⟩,
      fun hno => absurd rfl hno, fun _ => ⟨rfl, alget_alset_self _ _ _, alget_alset_self _ _ _⟩⟩
    simp only [List.mem_append, List.mem_singleton]
    exact ⟨fun hh => hh.resolve_right hm, Or.inl⟩

theorem addPlayer_frame_witness :
    (addPlayer ⟨["b"], [("b", (1, 1))], [("b", 6)], [((2, 3), 5)]⟩ "a" (0, 0)).2.coins
      = [((2, 3), 5)] ∧
    alget (addPlayer ⟨["b"], [("b", (1, 1))], [("b", 6)], [((2, 3), 5)]⟩ "a" (0, 0)).2.players "b"
      = some (1, 1) ∧
    alget (addPlayer ⟨["b"], [("b", (1, 1))], [("b", 6)], [((2, 3), 5)]⟩ "a" (0, 0)).2.scores "b"
      = some 6 ∧
    alget (addPlayer ⟨["b"], [("b", (1, 1))], [("b", 6)], [((2, 3), 5)]⟩ "a" (0, 0)).2.players "a"
      = some (0, 0) := by
  have h := addPlayer_frame ⟨["b"], [("b", (1, 1))], [("b", 6)], [((2, 3), 5)]⟩ "a" (0, 0)
  have hb := h.2.1 "b" (by decide)
  refine ⟨h.1, hb.1.trans (by decide), hb.2.1.trans (by decide), ?_⟩
  exact (h.2.2.2 (by decide)).2.1

/-! ## placeCoins machinery -/

theorem coinKey_injective : Function.Injective coinKey := by
  intro p q h
  unfold coinKey at h
  have hw : WIDTH = 64 := rfl
  have h1 : ((p / WIDTH : Nat) : Int) = ((q / WIDTH : Nat) : Int) := congrArg Prod.fst h
  have h2 : ((p % WIDTH : Nat) : Int) = ((q % WIDTH : Nat) : Int) := congrArg Prod.snd h
  have h1' : p / WIDTH = q / WIDTH := by exact_mod_cast h1
  have h2' : p % WIDTH = q % WIDTH := by exact_mod_cast h2
  rw [hw] at h1' h2'
  omega

theorem foldl_hsetnx :
    ∀ (l : List (Nat × Nat)) (acc : List (Pos × Nat)),
      (∀ p ∈ l, ∀ c ∈ acc, c.1 ≠ coinKey p.2) →
      (l.map (fun p => coinKey p.2)).Nodup →
      l.foldl (fun cs p => hsetnx cs (coinKey p.2) (coinValue p.1)) acc
        = acc ++ l.map (fun p => (coinKey p.2, coinValue p.1))
  | [], acc, _, _ => by simp
  | q :: t, acc, hdisj, hnd => by
    have hq : alget acc (coinKey q.2) = none :=
      alget_eq_none _ _ (fun c hc => hdisj q (List.mem_cons_self q t) c hc)
    have hstep : hsetnx acc (coinKey q.2) (coinValue q.1)
        = acc ++ [(coinKey q.2, coinValue q.1)] := by
      simp [hsetnx, hq]
    have hndt : (t.map (fun p => coinKey p.2)).Nodup := (List.nodup_cons.mp hnd).2
    have hqt : coinKey q.2 ∉ t.map (fun p => coinKey p.2) := (List.nodup_cons.mp hnd).1
    rw [List.foldl_cons, hstep,
      foldl_hsetnx t (acc ++ [(coinKey q.2, coinValue q.1)]) ?_ hndt]
    · simp
    · intro p hp c hc
      rcases List.mem_append.mp hc with hc1 | hc2
      · exact hdisj p (List.mem_cons_of_mem q hp) c hc1
      · have hce : c = (coinKey q.2, coinValue q.1) := by simpa using hc2
        rw [hce]
        show coinKey q.2 ≠ coinKey p.2
        intro hcontra
        exact hqt (hcontra ▸ List.mem_map_of_mem (fun p => coinKey p.2) hp)

/-- With a duplicate-free permutation, every HSETNX of `placeCoins` finds
its cell absent, so the coin hash is exactly the ranked image of the
first `NUM_COINS` drawn cells. -/
theorem placeCoins_eq (perm : List Nat) (hnd : perm.Nodup) :
    placeCoins perm
      = (perm.take NUM_COINS).enum.map (fun p => (coinKey p.2, coinValue p.1)) := by
  unfold placeCoins
  rw [foldl_hsetnx _ _ (fun p _ c hc => absurd hc (List.not_mem_nil c)) ?_]
  · simp
  · have hmm : ((perm.take NUM_COINS).enum.map (fun p => coinKey p.2))
        = ((perm.take NUM_COINS).enum.map Prod.snd).map coinKey := by
      rw [List.map_map]
      rfl
    rw [hmm, List.enum_map_snd]
    exact List.Nodup.map coinKey_injective
      (List.Nodup.sublist (List.take_sublist _ _) hnd)

theorem placeCoins_length (perm : List Nat)
    (hperm : perm.Perm (List.range (WIDTH * HEIGHT))) :
    (placeCoins perm).length = NUM_COINS := by
  have hnd : perm.Nodup := (List.Perm.nodup_iff hperm).mpr (List.nodup_range _)
  have hlen : perm.length = WIDTH * HEIGHT :=
    (List.Perm.length_eq hperm).trans (List.length_range _)
  rw [placeCoins_eq perm hnd, List.length_map, List.enum_length,
    List.length_take, hlen]
  decide

theorem placeCoins_values (perm : List Nat) (hnd : perm.Nodup) :
    (placeCoins perm).map Prod.snd
      = (List.range (perm.take NUM_COINS).length).map coinValue := by
  rw [placeCoins_eq perm hnd, List.map_map]
  have hmm : (Prod.snd ∘ fun p : Nat × Nat => (coinKey p.2, coinValue p.1))
      = coinValue ∘ Prod.fst := rfl
  rw [hmm, ← List.map_map, List.enum_map_fst]

/-! ## C3: placeCoins produces exactly the specified coin field -/

/-- C3: whenever `perm` is a permutation of the `WIDTH*HEIGHT` (4096)
cell indices, `placeCoins perm` is a field of exactly `NUM_COINS` (100)
coins, on pairwise distinct cells, all inside the 64×64 grid; the field
is the ranked image of the first 100 drawn cells (rank `i` carries
`coinValue i`), and the values number exactly 50 ones, 25 twos, 20 fives
and 5 tens. -/
theorem placeCoins_spec (perm : List Nat)
    (hperm : perm.Perm (List.range (WIDTH * HEIGHT))) :
    (placeCoins perm).length = NUM_COINS ∧
    ((placeCoins perm).map Prod.fst).Nodup ∧
    (∀ c ∈ placeCoins perm,
      0 ≤ c.1.1 ∧ c.1.1 < 64 ∧ 0 ≤ c.1.2 ∧ c.1.2 < 64) ∧
    placeCoins perm
      = (perm.take NUM_COINS).enum.map (fun p => (coinKey p.2, coinValue p.1)) ∧
    ((placeCoins perm).map Prod.snd).count 1 = 50 ∧
    ((placeCoins perm).map Prod.snd).count 2 = 25 ∧
    ((placeCoins perm).map Prod.snd).count 5 = 20 ∧
    ((placeCoins perm).map Prod.snd).count 10 = 5 := by
  have hnd : perm.Nodup := (List.Perm.nodup_iff hperm).mpr (List.nodup_range _)
  have hlen : perm.length = WIDTH * HEIGHT :=
    (List.Perm.length_eq hperm).trans (List.length_range _)
  have htake : (perm.take NUM_COINS).length = NUM_COINS := by
    rw [List.length_take, hlen]
    decide
  have hvals : (placeCoins perm).map Prod.snd
      = (List.range NUM_COINS).map coinValue := by
    rw [placeCoins_values perm hnd, htake]
  refine ⟨placeCoins_length perm hperm, ?_, ?_, placeCoins_eq perm hnd,
    by rw [hvals]; decide, by rw [hvals]; decide, by rw [hvals]; decide,
    by rw [hvals]; decide⟩
  · have hmm : ((placeCoins perm).map Prod.fst)
        = ((perm.take NUM_COINS).enum.map Prod.snd).map coinKey := by
      rw [placeCoins_eq perm hnd, List.map_map, ← List.enum_map_snd (perm.take NUM_COINS),
        List.map_map]
      rfl
    rw [hmm, List.enum_map_snd]
    exact List.Nodup.map coinKey_injective
      (List.Nodup.sublist (List.take_sublist _ _) hnd)
  · intro c hc
    rw [placeCoins_eq perm hnd] at hc
    obtain ⟨p, hp, rfl⟩ := List.mem_map.mp hc
    have hp2 : p.2 ∈ perm.take NUM_COINS := by
      have := List.mem_map_of_mem Prod.snd hp
      rwa [List.enum_map_snd] at this
    have hmem : p.2 ∈ perm := List.mem_of_mem_take hp2
    have hlt : p.2 < WIDTH * HEIGHT := by
      have := (List.Perm.mem_iff hperm).mp hmem
      exact List.mem_range.mp this
    have hw : WIDTH = 64 := rfl
    have hh : WIDTH * HEIGHT = 4096 := rfl
    rw [hh] at hlt
    dsimp only
    simp only [coinKey, WIDTH]
    refine ⟨?_, ?_, ?_, ?_⟩ <;> omega

theorem placeCoins_spec_witness :
    (placeCoins (List.range (WIDTH * HEIGHT))).length = NUM_COINS ∧
    ((placeCoins (List.range (WIDTH * HEIGHT))).map Prod.snd).count 10 = 5 := by
  have h := placeCoins_spec (List.range (WIDTH * HEIGHT)) (List.Perm.refl _)
  exact ⟨h.1, h.2.2.2.2.2.2.2⟩

/-! ## move machinery -/

/-- The `[newX, newY]` destination pair computed inside `move`. -/
def newPos (x y dx dy : Int) : Pos :=
  (clamp (x + dx) 0 ((WIDTH : Int) - 1), clamp (y + dy) 0 ((HEIGHT : Int) - 1))

/-- The four direction deltas of the source's lookup table. -/
theorem deltaOf_cases (d : String) (dx dy : Int) (hd : deltaOf d = some (dx, dy)) :
    (dx, dy) = ((0 : Int), (-1 : Int)) ∨ (dx, dy) = ((1 : Int), (0 : Int)) ∨
    (dx, dy) = ((0 : Int), (1 : Int)) ∨ (dx, dy) = ((-1 : Int), (0 : Int)) := by
  unfold deltaOf at hd
  split_ifs at hd <;> simp_all

theorem clamp_lb (v low high : Int) (h : low ≤ high) : low ≤ clamp v low high := by
  unfold clamp; split_ifs <;> omega

theorem clamp_ub (v low high : Int) (h : low ≤ high) : clamp v low high ≤ high := by
  unfold clamp; split_ifs <;> omega

theorem clamp_natAbs (x dx low high : Int) (h0 : low ≤ x) (h1 : x ≤ high) :
    (clamp (x + dx) low high - x).natAbs ≤ dx.natAbs := by
  unfold clamp; split_ifs <;> omega

/-- Reduction of `move` when the destination cell holds a coin. -/
theorem move_eq_coin (s : GameState) (d name : String) (perm : List Nat)
    (dx dy x y : Int) (v : Nat)
    (hd : deltaOf d = some (dx, dy))
    (hpos : alget s.players name = some (x, y))
    (hcoin : alget s.coins (newPos x y dx dy) = some v) :
    move s d name perm =
      if (aldel s.coins (newPos x y dx dy)).length = 0 then
        Except.ok
          { usednames := s.usednames
            players := alset s.players name (newPos x y dx dy)
            scores := zincrby s.scores name v
            coins := placeCoins perm }
      else
        Except.ok
          { usednames := s.usednames
            players := alset s.players name (newPos x y dx dy)
            scores := zincrby s.scores name v
            coins := aldel s.coins (newPos x y dx dy) } := by
  unfold move
  rw [hd, hpos]
  simp only [newPos] at hcoin ⊢
  rw [hcoin]

/-- Reduction of `move` when the destination cell holds no coin. -/
theorem move_eq_nocoin (s : GameState) (d name : String) (perm : List Nat)
    (dx dy x y : Int)
    (hd : deltaOf d = some (dx, dy))
    (hpos : alget s.players name = some (x, y))
    (hcoin : alget s.coins (newPos x y dx dy) = none) :
    move s d name perm =
      if s.coins.length = 0 then
        Except.ok
          { s with
            players := alset s.players name (newPos x y dx dy)
            coins := placeCoins perm }
      else
        Except.ok { s with players := alset s.players name (newPos x y dx dy) } := by
  unfold move
  rw [hd, hpos]
  simp only [newPos] at hcoin ⊢
  rw [hcoin]

/-! ## C4: movement stays on the grid, one cell at a time -/

/-- C4: for a player whose record is at an in-bounds `(x, y)` and any
recognised direction, `move` commits a position `(x', y')` with
`0 ≤ x' < 64`, `0 ≤ y' < 64`, each axis independently clamped, and
`(x', y')` differs from `(x, y)` by at most one unit in total (so at most
one unit along one axis, or not at all at a boundary). -/
theorem move_bounds (s : GameState) (d name : String) (perm : List Nat)
    (dx dy x y : Int)
    (hd : deltaOf d = some (dx, dy))
    (hpos : alget s.players name = some (x, y))
    (hx0 : 0 ≤ x) (hx1 : x < 64) (hy0 : 0 ≤ y) (hy1 : y < 64) :
    ∃ s', move s d name perm = Except.ok s' ∧
      alget s'.players name = some (newPos x y dx dy) ∧
      0 ≤ (newPos x y dx dy).1 ∧ (newPos x y dx dy).1 < 64 ∧
      0 ≤ (newPos x y dx dy).2 ∧ (newPos x y dx dy).2 < 64 ∧
      ((newPos x y dx dy).1 - x).natAbs + ((newPos x y dx dy).2 - y).natAbs ≤ 1 := by
  have hW : ((WIDTH : Int) - 1) = 63 := by decide
  have hH : ((HEIGHT : Int) - 1) = 63 := by decide
  have hb : 0 ≤ (newPos x y dx dy).1 ∧ (newPos x y dx dy).1 < 64 ∧
      0 ≤ (newPos x y dx dy).2 ∧ (newPos x y dx dy).2 < 64 := by
    unfold newPos
    rw [hW, hH]
    have c1 := clamp_lb (x + dx) 0 63 (by omega)
    have c2 := clamp_ub (x + dx) 0 63 (by omega)
    have c3 := clamp_lb (y + dy) 0 63 (by omega)
    have c4 := clamp_ub (y + dy) 0 63 (by omega)
    exact ⟨c1, by omega, c3, by omega⟩
  have habs : ((newPos x y dx dy).1 - x).natAbs + ((newPos x y dx dy).2 - y).natAbs ≤ 1 := by
    have d1 : ((newPos x y dx dy).1 - x).natAbs ≤ dx.natAbs := by
      unfold newPos
      rw [hW]
      exact clamp_natAbs x dx 0 63 hx0 (by omega)
    have d2 : ((newPos x y dx dy).2 - y).natAbs ≤ dy.natAbs := by
      unfold newPos
      rw [hH]
      exact clamp_natAbs y dy 0 63 hy0 (by omega)
    have hsum : dx.natAbs + dy.natAbs = 1 := by
      rcases deltaOf_cases d dx dy hd with h | h | h | h <;>
        (injection h with h1 h2; subst h1; subst h2; decide)
    omega
  cases hcoin : alget s.coins (newPos x y dx dy) with
  | some v =>
    rw [move_eq_coin s d name perm dx dy x y v hd hpos hcoin]
    by_cases hlen : (aldel s.coins (newPos x y dx dy)).length = 0
    · rw [if_pos hlen]
      exact ⟨_, rfl, alget_alset_self _ _ _, hb.1, hb.2.1, hb.2.2.1, hb.2.2.2, habs⟩
    · rw [if_neg hlen]
      exact ⟨_, rfl, alget_alset_self _ _ _, hb.1, hb.2.1, hb.2.2.1, hb.2.2.2, habs⟩
  | none =>
    rw [move_eq_nocoin s d name perm dx dy x y hd hpos hcoin]
    by_cases hlen : s.coins.length = 0
    · rw [if_pos hlen]
      exact ⟨_, rfl, alget_alset_self _ _ _, hb.1, hb.2.1, hb.2.2.1, hb.2.2.2, habs⟩
    · rw [if_neg hlen]
      exact ⟨_, rfl, alget_alset_self _ _ _, hb.1, hb.2.1, hb.2.2.1, hb.2.2.2, habs⟩

/-- The spec's concrete scenario: at `(5, 0)`, moving Up stays at
`(5, 0)` (clamped at the top edge), inside the grid. -/
theorem move_bounds_witness :
    (∃ s', move ⟨["a"], [("a", (5, 0))], [("a", 0)], [((9, 9), 1)]⟩ "U" "a" []
        = Except.ok s' ∧
      alget s'.players "a" = some (newPos 5 0 0 (-1)) ∧
      0 ≤ (newPos 5 0 0 (-1)).1 ∧ (newPos 5 0 0 (-1)).1 < 64 ∧
      0 ≤ (newPos 5 0 0 (-1)).2 ∧ (newPos 5 0 0 (-1)).2 < 64 ∧
      ((newPos 5 0 0 (-1)).1 - 5).natAbs + ((newPos 5 0 0 (-1)).2 - 0).natAbs ≤ 1) ∧
    newPos 5 0 0 (-1) = (5, 0) := by
  refine ⟨move_bounds _ "U" "a" [] 0 (-1) 5 0 rfl (by decide)
    (by decide) (by decide) (by decide) (by decide), by decide⟩

/-! ## C2: coin pickup and scoring -/

/-- C2: for an admitted player and a recognised direction, with the
depletion-triggered refill case set aside (that case is the subject of
the refill claim): if the clamped destination holds a coin of value `v`
and its removal leaves the field non-empty, the move adds exactly `v` to
the mover's score (a missing score entry counts as 0, as ZINCRBY does),
removes exactly that coin, and commits the clamped destination as the
player's position; if the destination holds no coin (and the field is
not already empty), scores and the entire coin field are untouched and
the position is still committed. -/
theorem move_pickup (s : GameState) (d name : String) (perm : List Nat)
    (dx dy x y : Int)
    (hd : deltaOf d = some (dx, dy))
    (hpos : alget s.players name = some (x, y)) :
    (∀ v, alget s.coins (newPos x y dx dy) = some v →
      aldel s.coins (newPos x y dx dy) ≠ [] →
      ∃ s', move s d name perm = Except.ok s' ∧
        alget s'.scores name = some ((alget s.scores name).getD 0 + v) ∧
        s'.coins = aldel s.coins (newPos x y dx dy) ∧
        alget s'.coins (newPos x y dx dy) = none ∧
        alget s'.players name = some (newPos x y dx dy)) ∧
    (alget s.coins (newPos x y dx dy) = none → s.coins ≠ [] →
      ∃ s', move s d name perm = Except.ok s' ∧
        s'.scores = s.scores ∧
        s'.coins = s.coins ∧
        alget s'.players name = some (newPos x y dx dy)) := by
  constructor
  · intro v hcoin hne
    rw [move_eq_coin s d name perm dx dy x y v hd hpos hcoin]
    rw [if_neg (fun h => hne (List.length_eq_zero.mp h))]
    exact ⟨_, rfl, alget_zincrby_self _ _ _, rfl, alget_aldel_self _ _,
      alget_alset_self _ _ _⟩
  · intro hcoin hne
    rw [move_eq_nocoin s d name perm dx dy x y hd hpos hcoin]
    rw [if_neg (fun h => hne (List.length_eq_zero.mp h))]
    exact ⟨_, rfl, rfl, rfl, alget_alset_self _ _ _⟩

theorem move_pickup_witness :
    ∃ s', move ⟨["a"], [("a", (0, 0))], [("a", 2)], [((1, 0), 5), ((2, 2), 1)]⟩
        "R" "a" [] = Except.ok s' ∧
      alget s'.scores "a" = some 7 ∧
      s'.coins = [((2, 2), 1)] ∧
      alget s'.players "a" = some (1, 0) := by
  have h := (move_pickup ⟨["a"], [("a", (0, 0))], [("a", 2)], [((1, 0), 5), ((2, 2), 1)]⟩
    "R" "a" [] 1 0 0 0 rfl (by decide)).1 5 (by decide) (by decide)
  obtain ⟨s', hm, hs, hc, _, hp⟩ := h
  exact ⟨s', hm, by simpa using hs, by simpa using hc, by simpa using hp⟩

/-! ## C9: move frame -/

/-- C9: a `move` call for an admitted player (one with a position
record) never errors, never touches the name registry, and leaves every
other player's position record and score entry unchanged — the only
state it can change is the mover's position, the mover's score and the
coin field. -/
theorem move_frame (s : GameState) (d name : String) (perm : List Nat)
    (x y : Int)
    (hpos : alget s.players name = some (x, y)) :
    ∃ s', move s d name perm = Except.ok s' ∧
      s'.usednames = s.usednames ∧
      ∀ m, m ≠ name →
        alget s'.players m = alget s.players m ∧
        alget s'.scores m = alget s.scores m := by
  cases hdel : deltaOf d with
  | none =>
    refine ⟨s, ?_, rfl, fun m _ => ⟨rfl, rfl⟩⟩
    unfold move
    rw [hdel]
  | some delta =>
    obtain ⟨dx, dy⟩ := delta
    cases hcoin : alget s.coins (newPos x y dx dy) with
    | some v =>
      rw [move_eq_coin s d name perm dx dy x y v hdel hpos hcoin]
      by_cases hlen : (aldel s.coins (newPos x y dx dy)).length = 0
      · rw [if_pos hlen]
        exact ⟨_, rfl, rfl, fun m hm =>
          ⟨alget_alset_ne _ _ _ _ hm, alget_zincrby_ne _ _ _ _ hm⟩⟩
      · rw [if_neg hlen]
        exact ⟨_, rfl, rfl, fun m hm =>
          ⟨alget_alset_ne _ _ _ _ hm, alget_zincrby_ne _ _ _ _ hm⟩⟩
    | none =>
      rw [move_eq_nocoin s d name perm dx dy x y hdel hpos hcoin]
      by_cases hlen : s.coins.length = 0
      · rw [if_pos hlen]
        exact ⟨_, rfl, rfl, fun m hm => ⟨alget_alset_ne _ _ _ _ hm, rfl⟩⟩
      · rw [if_neg hlen]
        exact ⟨_, rfl, rfl, fun m hm => ⟨alget_alset_ne _ _ _ _ hm, rfl⟩⟩

theorem move_frame_witness :
    ∃ s', move ⟨["a", "b"], [("a", (0, 0)), ("b", (3, 3))], [("a", 2), ("b", 9)],
        [((1, 0), 5), ((2, 2), 1)]⟩ "R" "a" [] = Except.ok s' ∧
      s'.usednames = ["a", "b"] ∧
      alget s'.players "b" = some (3, 3) ∧
      alget s'.scores "b" = some 9 := by
  obtain ⟨s', hm, hu, hf⟩ := move_frame
    ⟨["a", "b"], [("a", (0, 0)), ("b", (3, 3))], [("a", 2), ("b", 9)],
      [((1, 0), 5), ((2, 2), 1)]⟩ "R" "a" [] 0 0 (by decide)
  have hb := hf "b" (by decide)
  exact ⟨s', hm, hu, hb.1.trans (by decide), hb.2.trans (by decide)⟩

/-! ## C5: refill on depletion -/

/-- C5: in the sequential model (each `move` call an atomic step), the
refill fires exactly on depletion: a move whose pickup removes the last
coin replaces the field by one `placeCoins` refill of exactly
`NUM_COINS` (100) coins, while a move after which the field is still
non-empty performs no refill at all — its final field is exactly the
pickup's removal (or the untouched field when there was no coin), so no
later mover can observe an empty field and trigger a second refill. -/
theorem move_refill (s : GameState) (d name : String) (perm : List Nat)
    (dx dy x y : Int)
    (hperm : perm.Perm (List.range (WIDTH * HEIGHT)))
    (hd : deltaOf d = some (dx, dy))
    (hpos : alget s.players name = some (x, y)) :
    (∀ v, alget s.coins (newPos x y dx dy) = some v →
      aldel s.coins (newPos x y dx dy) = [] →
      ∃ s', move s d name perm = Except.ok s' ∧
        s'.coins = placeCoins perm ∧ s'.coins.length = NUM_COINS) ∧
    (∀ v, alget s.coins (newPos x y dx dy) = some v →
      aldel s.coins (newPos x y dx dy) ≠ [] →
      ∃ s', move s d name perm = Except.ok s' ∧
        s'.coins = aldel s.coins (newPos x y dx dy)) ∧
    (alget s.coins (newPos x y dx dy) = none → s.coins ≠ [] →
      ∃ s', move s d name perm = Except.ok s' ∧ s'.coins = s.coins) := by
  refine ⟨?_, ?_, ?_⟩
  · intro v hcoin hempty
    rw [move_eq_coin s d name perm dx dy x y v hd hpos hcoin]
    rw [if_pos (by rw [hempty]; rfl)]
    exact ⟨_, rfl, rfl, placeCoins_length perm hperm⟩
  · intro v hcoin hne
    rw [move_eq_coin s d name perm dx dy x y v hd hpos hcoin]
    rw [if_neg (fun h => hne (List.length_eq_zero.mp h))]
    exact ⟨_, rfl, rfl⟩
  · intro hcoin hne
    rw [move_eq_nocoin s d name perm dx dy x y hd hpos hcoin]
    rw [if_neg (fun h => hne (List.length_eq_zero.mp h))]
    exact ⟨_, rfl, rfl⟩

theorem move_refill_witness :
    ∃ s', move ⟨["a"], [("a", (0, 0))], [("a", 0)], [((1, 0), 10)]⟩
        "R" "a" (List.range (WIDTH * HEIGHT)) = Except.ok s' ∧
      s'.coins = placeCoins (List.range (WIDTH * HEIGHT)) ∧
      s'.coins.length = NUM_COINS :=
  (move_refill ⟨["a"], [("a", (0, 0))], [("a", 0)], [((1, 0), 10)]⟩
    "R" "a" (List.range (WIDTH * HEIGHT)) 1 0 0 0
    (List.Perm.refl _) rfl (by decide)).1 10 (by decide) (by decide)

/-! ## C8: move for an unknown player -/

/-- C8 counterexample: the claim says a `move` for a name with no
position record "surfaces no error, does not crash, and changes no
state".  On the source, GET `player:<name>` hands the callback a nil
`res`, and `res.split(',')` is then a TypeError: the call surfaces an
error (it does not silently return the unchanged state). -/
theorem move_unknown_counterexample :
    move ⟨[], [], [], [((0, 0), 1)]⟩ "U" "ghost" []
      = Except.error "TypeError: cannot read property split of null" ∧
    move ⟨[], [], [], [((0, 0), 1)]⟩ "U" "ghost" []
      ≠ Except.ok ⟨[], [], [], [((0, 0), 1)]⟩ := by
  have he : move ⟨[], [], [], [((0, 0), 1)]⟩ "U" "ghost" []
      = Except.error "TypeError: cannot read property split of null" := rfl
  exact ⟨he, fun h => by rw [he] at h; exact Except.noConfusion h⟩

/-- C8 amended: a `move` with a recognised direction for a name that has
no position record raises a TypeError (modelled as `Except.error`)
before reaching any write — so no state is changed, but the failure is
an error, not a silent no-op.  (With an unrecognised direction the call
is indeed a silent no-op: the guard `if (delta)` fails first.) -/
theorem move_unknown_errors (s : GameState) (d name : String) (perm : List Nat)
    (dx dy : Int)
    (hd : deltaOf d = some (dx, dy))
    (hpos : alget s.players name = none) :
    move s d name perm
      = Except.error "TypeError: cannot read property split of null" := by
  unfold move
  rw [hd, hpos]

theorem move_unknown_errors_witness :
    move ⟨["z"], [("z", (1, 1))], [("z", 3)], [((0, 0), 1)]⟩ "D" "ghost" []
      = Except.error "TypeError: cannot read property split of null" :=
  move_unknown_errors _ "D" "ghost" [] 0 1 rfl (by decide)

/-! ## C7: snapshot -/

instance : IsTotal (String × Nat) scoreRel := by
  constructor
  intro a b
  rcases lt_trichotomy a.2 b.2 with h | h | h
  · exact Or.inr (Or.inl h)
  · rcases le_total a.1 b.1 with hn | hn
    · exact Or.inr (Or.inr ⟨h.symm, hn⟩)
    · exact Or.inl (Or.inr ⟨h, hn⟩)
  · exact Or.inl (Or.inl h)

instance : IsTrans (String × Nat) scoreRel := by
  constructor
  intro a b c hab hbc
  rcases hab with h1 | ⟨h1, h1'⟩ <;> rcases hbc with h2 | ⟨h2, h2'⟩
  · exact Or.inl (h2.trans h1)
  · exact Or.inl (h2 ▸ h1)
  · exact Or.inl (h1 ▸ h2)
  · exact Or.inr ⟨h1.trans h2, h2'.trans h1'⟩

/-- C7: the `state()` wired into the entry point (`src/server/game.js`)
returns `null` on every call — e.g. on a store with one player, one
score and one coin it produces no snapshot at all, although its own
comment says it returns the positions, the sorted scores and the coins.
The `src/unnamed/part_000` revision does return the snapshot (see the
theorem after this one). -/
theorem state_returns_no_snapshot :
    stateServerGameJs ⟨["a"], [("a", (1, 2))], [("a", 5)], [((0, 0), 1)]⟩ = none :=
  rfl

/-- The `state(callback)` of `src/unnamed/part_000`: every snapshot
carries the store's name→position
mapping and cell→coin-value mapping verbatim, and its scores are a
rearrangement of the store's score entries ordered descending by score,
with equal scores in reverse lexicographical name order — a fixed,
deterministic tie order (Redis ZREVRANGE semantics). -/
theorem state_spec (s : GameState) :
    (state s).positions = s.players ∧
    (state s).coins = s.coins ∧
    (state s).scores.Perm s.scores ∧
    (state s).scores.Sorted scoreRel ∧
    (state s).scores.Sorted (fun a b => b.2 ≤ a.2) := by
  refine ⟨rfl, rfl, List.perm_insertionSort scoreRel s.scores,
    List.sorted_insertionSort scoreRel s.scores, ?_⟩
  exact (List.sorted_insertionSort scoreRel s.scores).imp
    (fun h => by rcases h with h | ⟨h, _⟩ <;> omega)

end CoinGame
